import Mathlib

/-!
Verification of `src/native/UtilityCalculator.h` from the KatyaAi repository.

The source is a single C function:

  extern "C" float CalculateUtility(const float* factors, const float* weights, size_t length)

which validates its inputs, accumulates `weightedSum` and `weightTotal` over the first
`length` elements left to right, and returns `weightedSum / weightTotal`, or `0` when
`weightTotal` is exactly zero, or throws `std::invalid_argument` when a pointer is null
or `length == 0`.

Embedding choices:
- numbers are exact rationals (`ℚ`); the C code uses single-precision floats, whose
  rounding is not modelled, but the accumulation order of the source is preserved;
- a possibly-null pointer to an array is an `Option (List ℚ)` (`none` = null pointer);
- reading `p[i]` past the end of the array the pointer refers to is undefined behaviour
  in C++; the embedding surfaces such a read as the dedicated outcome `undefinedRead`;
- throwing `std::invalid_argument` is the outcome `invalidInput` carrying the message.
-/

namespace UtilityCalculator

/-- Observable outcome of one call to the C function `CalculateUtility`:
either it throws `std::invalid_argument` (with its message), or it performs an
out-of-bounds read (undefined behaviour, modelled explicitly), or it returns a score. -/
inductive CallResult where
  | invalidInput (msg : String) : CallResult
  | undefinedRead : CallResult
  | ok (score : ℚ) : CallResult
deriving DecidableEq, Repr

/-- The message of the `std::invalid_argument` thrown by `CalculateUtility`
(line 7 of the source). -/
def invalidInputMsg : String :=
  "Factors and weights arrays must not be null and must have a positive length."

/-- The accumulation loop of `CalculateUtility` (source lines 13–16):

  for (size_t i = 0; i < length; ++i) \x7b
      weightedSum += factors[i] * weights[i];
      weightTotal += weights[i];
  \x7d

`k` is the number of remaining iterations (`length - i`), `i` the current index, and
the last two arguments are the accumulators `weightedSum` and `weightTotal`.
A read of `factors[i]` or `weights[i]` beyond the list backing the pointer yields
`none` (undefined behaviour in the C source). -/
def loopGo (factors weights : List ℚ) : Nat → Nat → ℚ → ℚ → Option (ℚ × ℚ)
  | 0, _, weightedSum, weightTotal => some (weightedSum, weightTotal)
  | k + 1, i, weightedSum, weightTotal =>
    match factors.get? i, weights.get? i with
    | some f, some w => loopGo factors weights k (i + 1) (weightedSum + f * w) (weightTotal + w)
    | _, _ => none

/-- `CalculateUtility` (source lines 5–23): validate, accumulate, normalize.
`factors` and `weights` model the two pointer arguments (`none` = null),
`length` the explicit element count. -/
def CalculateUtility (factors weights : Option (List ℚ)) (length : Nat) : CallResult :=
  match factors, weights with
  | none, _ => .invalidInput invalidInputMsg
  | _, none => .invalidInput invalidInputMsg
  | some fs, some ws =>
    if length = 0 then .invalidInput invalidInputMsg
    else
      match loopGo fs ws length 0 0 0 with
      | none => .undefinedRead
      | some (weightedSum, weightTotal) =>
        if weightTotal = 0 then .ok 0
        else .ok (weightedSum / weightTotal)

/-- Mathematical value of the accumulator `weightedSum` after the loop:
`Σ_{j<n} factors[j] * weights[j]`. -/
def weightedSumSpec (factors weights : List ℚ) (n : Nat) : ℚ :=
  ∑ j ∈ Finset.range n, factors.getD j 0 * weights.getD j 0

/-- Mathematical value of the accumulator `weightTotal` after the loop:
`Σ_{j<n} weights[j]`. -/
def weightTotalSpec (weights : List ℚ) (n : Nat) : ℚ :=
  ∑ j ∈ Finset.range n, weights.getD j 0

theorem loopGo_eq (factors weights : List ℚ) (k : Nat) :
    ∀ (i : Nat) (a b : ℚ), i + k ≤ factors.length → i + k ≤ weights.length →
      loopGo factors weights k i a b =
        some (a + ∑ j ∈ Finset.Ico i (i + k), factors.getD j 0 * weights.getD j 0,
              b + ∑ j ∈ Finset.Ico i (i + k), weights.getD j 0) := by
  induction k with
  | zero => intro i a b _ _; simp [loopGo]
  | succ k ih =>
    intro i a b hf hw
    have hif : i < factors.length := by omega
    have hiw : i < weights.length := by omega
    have h1 : factors.get? i = some (factors.getD i 0) := by
      rw [List.getD_eq_getElem?_getD, List.get?_eq_getElem?,
        List.getElem?_eq_getElem hif]
      rfl
    have h2 : weights.get? i = some (weights.getD i 0) := by
      rw [List.getD_eq_getElem?_getD, List.get?_eq_getElem?,
        List.getElem?_eq_getElem hiw]
      rfl
    simp only [loopGo, h1, h2]
    rw [ih (i + 1) (a + factors.getD i 0 * weights.getD i 0) (b + weights.getD i 0)
      (by omega) (by omega)]
    have hlt : i < i + (k + 1) := by omega
    have harr : i + 1 + k = i + (k + 1) := by omega
    rw [harr, Finset.sum_eq_sum_Ico_succ_bot hlt
      (fun j => factors.getD j 0 * weights.getD j 0),
      Finset.sum_eq_sum_Ico_succ_bot hlt (fun j => weights.getD j 0)]
    congr 2 <;> ring

/-- When both arrays have at least `n` elements, the loop completes and computes
exactly the two specification sums. -/
theorem utilityLoop_spec (factors weights : List ℚ) (n : Nat)
    (hf : n ≤ factors.length) (hw : n ≤ weights.length) :
    loopGo factors weights n 0 0 0 =
      some (weightedSumSpec factors weights n, weightTotalSpec weights n) := by
  have h := loopGo_eq factors weights n 0 0 0 (by omega) (by omega)
  simp only [Nat.zero_add, zero_add] at h
  unfold weightedSumSpec weightTotalSpec
  rw [Finset.range_eq_Ico]
  exact h

/-- Helper: the successful-call shape of `CalculateUtility` when the weight total
is non-zero. -/
theorem CalculateUtility_ok (factors weights : List ℚ) (n : Nat)
    (hn : n ≠ 0) (hf : n ≤ factors.length) (hw : n ≤ weights.length)
    (hne : weightTotalSpec weights n ≠ 0) :
    CalculateUtility (some factors) (some weights) n =
      .ok (weightedSumSpec factors weights n / weightTotalSpec weights n) := by
  simp only [CalculateUtility]
  rw [utilityLoop_spec factors weights n hf hw]
  simp [hn, hne]

/-- Helper: when the weight total is exactly zero, the call returns the score `0`. -/
theorem CalculateUtility_zero_total (factors weights : List ℚ) (n : Nat)
    (hn : n ≠ 0) (hf : n ≤ factors.length) (hw : n ≤ weights.length)
    (hzero : weightTotalSpec weights n = 0) :
    CalculateUtility (some factors) (some weights) n = .ok 0 := by
  simp only [CalculateUtility]
  rw [utilityLoop_spec factors weights n hf hw]
  simp [hn, hzero]

/-- Smallest element of a factor sequence (`min(F)` in the spec); `0` for the
empty sequence, which the claims never use. -/
def minList : List ℚ → ℚ
  | [] => 0
  | x :: xs => xs.foldl min x

/-- Largest element of a factor sequence (`max(F)` in the spec); `0` for the
empty sequence, which the claims never use. -/
def maxList : List ℚ → ℚ
  | [] => 0
  | x :: xs => xs.foldl max x

theorem foldl_min_le (xs : List ℚ) :
    ∀ a : ℚ, xs.foldl min a ≤ a ∧ ∀ x ∈ xs, xs.foldl min a ≤ x := by
  induction xs with
  | nil => intro a; exact ⟨le_refl a, by simp⟩
  | cons y ys ih =>
    intro a
    have h := ih (min a y)
    refine ⟨le_trans h.1 (min_le_left a y), ?_⟩
    intro x hx
    rcases List.mem_cons.mp hx with rfl | hx
    · exact le_trans h.1 (min_le_right a x)
    · exact h.2 x hx

theorem le_foldl_max (xs : List ℚ) :
    ∀ a : ℚ, a ≤ xs.foldl max a ∧ ∀ x ∈ xs, x ≤ xs.foldl max a := by
  induction xs with
  | nil => intro a; exact ⟨le_refl a, by simp⟩
  | cons y ys ih =>
    intro a
    have h := ih (max a y)
    refine ⟨le_trans (le_max_left a y) h.1, ?_⟩
    intro x hx
    rcases List.mem_cons.mp hx with rfl | hx
    · exact le_trans (le_max_right a x) h.1
    · exact h.2 x hx

theorem minList_le (l : List ℚ) : ∀ x ∈ l, minList l ≤ x := by
  cases l with
  | nil => simp
  | cons y ys =>
    intro x hx
    rcases List.mem_cons.mp hx with rfl | hx
    · exact (foldl_min_le ys x).1
    · exact (foldl_min_le ys y).2 x hx

theorem le_maxList (l : List ℚ) : ∀ x ∈ l, x ≤ maxList l := by
  cases l with
  | nil => simp
  | cons y ys =>
    intro x hx
    rcases List.mem_cons.mp hx with rfl | hx
    · exact (le_foldl_max ys x).1
    · exact (le_foldl_max ys y).2 x hx

theorem weightedSumSpec_le (factors weights : List ℚ) (n : Nat) (hi : ℚ)
    (hf : factors.length = n) (hw : weights.length = n)
    (hnonneg : ∀ w ∈ weights, 0 ≤ w)
    (hhi : ∀ x ∈ factors, x ≤ hi) :
    weightedSumSpec factors weights n ≤ hi * weightTotalSpec weights n := by
  unfold weightedSumSpec weightTotalSpec
  rw [Finset.mul_sum]
  refine Finset.sum_le_sum fun j hj => ?_
  have hjf : j < factors.length := by
    have := Finset.mem_range.mp hj; omega
  have hjw : j < weights.length := by
    have := Finset.mem_range.mp hj; omega
  rw [List.getD_eq_getElem factors 0 hjf, List.getD_eq_getElem weights 0 hjw]
  exact mul_le_mul_of_nonneg_right (hhi _ (List.getElem_mem hjf))
    (hnonneg _ (List.getElem_mem hjw))

theorem le_weightedSumSpec (factors weights : List ℚ) (n : Nat) (lo : ℚ)
    (hf : factors.length = n) (hw : weights.length = n)
    (hnonneg : ∀ w ∈ weights, 0 ≤ w)
    (hlo : ∀ x ∈ factors, lo ≤ x) :
    lo * weightTotalSpec weights n ≤ weightedSumSpec factors weights n := by
  unfold weightedSumSpec weightTotalSpec
  rw [Finset.mul_sum]
  refine Finset.sum_le_sum fun j hj => ?_
  have hjf : j < factors.length := by
    have := Finset.mem_range.mp hj; omega
  have hjw : j < weights.length := by
    have := Finset.mem_range.mp hj; omega
  rw [List.getD_eq_getElem factors 0 hjf, List.getD_eq_getElem weights 0 hjw]
  exact mul_le_mul_of_nonneg_right (hlo _ (List.getElem_mem hjf))
    (hnonneg _ (List.getElem_mem hjw))

theorem weightTotalSpec_nonneg (weights : List ℚ) (n : Nat)
    (hw : weights.length = n) (hnonneg : ∀ w ∈ weights, 0 ≤ w) :
    0 ≤ weightTotalSpec weights n := by
  unfold weightTotalSpec
  refine Finset.sum_nonneg fun j hj => ?_
  have hjw : j < weights.length := by
    have := Finset.mem_range.mp hj; omega
  rw [List.getD_eq_getElem weights 0 hjw]
  exact hnonneg _ (List.getElem_mem hjw)

/-- C4 counterexample: with `F = [5]`, `W = [0]`, `n = 1` every weight is
non-negative, yet the returned score `0` is below `min(F) = 5`, so it does not
lie within `[min(F), max(F)] = [5, 5]`. -/
theorem C4_counterexample :
    (∀ w ∈ [(0 : ℚ)], 0 ≤ w) ∧
    CalculateUtility (some [5]) (some [0]) 1 = .ok 0 ∧
    minList [(5 : ℚ)] = 5 ∧ maxList [(5 : ℚ)] = 5 ∧
    ¬ (minList [(5 : ℚ)] ≤ 0 ∧ (0 : ℚ) ≤ maxList [(5 : ℚ)]) := by
  refine ⟨by simp, ?_, rfl, rfl, ?_⟩
  · simp [CalculateUtility, loopGo]
  · intro h
    have : (5 : ℚ) ≤ 0 := h.1
    norm_num at this

/-- C4 amended: for equal-length inputs of length `n ≥ 1` with all weights
non-negative AND a non-zero weight total, the returned score lies within
`[min(F), max(F)]`. (The original claim omitted the non-zero-total condition;
with all weights zero the function returns `0`, which can lie outside the range.) -/
theorem C4_weighted_average_bounds (factors weights : List ℚ) (n : Nat)
    (hn : 1 ≤ n) (hf : factors.length = n) (hw : weights.length = n)
    (hnonneg : ∀ w ∈ weights, 0 ≤ w)
    (hne : weightTotalSpec weights n ≠ 0) :
    ∃ q, CalculateUtility (some factors) (some weights) n = .ok q ∧
      minList factors ≤ q ∧ q ≤ maxList factors := by
  have hpos : 0 < weightTotalSpec weights n :=
    lt_of_le_of_ne (weightTotalSpec_nonneg weights n hw hnonneg) (Ne.symm hne)
  refine ⟨_, CalculateUtility_ok factors weights n (by omega) hf.ge hw.ge hne, ?_, ?_⟩
  · rw [le_div_iff₀ hpos]
    exact le_weightedSumSpec factors weights n (minList factors) hf hw hnonneg
      (minList_le factors)
  · rw [div_le_iff₀ hpos]
    have := weightedSumSpec_le factors weights n (maxList factors) hf hw hnonneg
      (le_maxList factors)
    linarith [this]

/-- C4 witness: `F = [0, 4]`, `W = [1, 3]`, `n = 2` returns a score (namely `3`)
between `min(F) = 0` and `max(F) = 4`. -/
theorem C4_witness :
    ∃ q, CalculateUtility (some [(0 : ℚ), 4]) (some [1, 3]) 2 = .ok q ∧
      minList [(0 : ℚ), 4] ≤ q ∧ q ≤ maxList [(0 : ℚ), 4] :=
  C4_weighted_average_bounds [0, 4] [1, 3] 2 (by norm_num) (by simp) (by simp)
    (by intro w hw; simp at hw; rcases hw with rfl | rfl <;> norm_num)
    (by norm_num [weightTotalSpec, Finset.sum_range_succ])

/-- C1: for every pair of non-null sequences `F` and `W` of equal length `n ≥ 1`
whose weight total is non-zero, `CalculateUtility` returns the normalized weighted
sum `(Σ_{i<n} F[i]*W[i]) / (Σ_{i<n} W[i])`, the sums being accumulated left to right
by the loop (arithmetic modelled exactly over `ℚ`). -/
theorem C1_normalized_weighted_sum (factors weights : List ℚ) (n : Nat)
    (hn : 1 ≤ n) (hf : factors.length = n) (hw : weights.length = n)
    (hne : weightTotalSpec weights n ≠ 0) :
    CalculateUtility (some factors) (some weights) n =
      .ok (weightedSumSpec factors weights n / weightTotalSpec weights n) :=
  CalculateUtility_ok factors weights n (by omega) (le_of_eq hf.symm)
    (le_of_eq hw.symm) hne

/-- C1 witness: `F = [1, 3]`, `W = [1, 1]`, `n = 2` gives `(1*1 + 3*1) / (1+1) = 2`. -/
theorem C1_witness : CalculateUtility (some [1, 3]) (some [1, 1]) 2 = .ok 2 := by
  have h := C1_normalized_weighted_sum [1, 3] [1, 1] 2 (by norm_num) (by simp) (by simp)
    (by norm_num [weightTotalSpec, Finset.sum_range_succ])
  rw [h]
  norm_num [weightedSumSpec, weightTotalSpec, Finset.sum_range_succ]

/-- C2: for non-null `F` and `W` of length `n ≥ 1`, if the accumulated weight total
is exactly zero — in particular whenever every weight is zero — `CalculateUtility`
returns the score `0` rather than an error. -/
theorem C2_zero_weight_total (factors weights : List ℚ) (n : Nat)
    (hn : 1 ≤ n) (hf : factors.length = n) (hw : weights.length = n)
    (hzero : weightTotalSpec weights n = 0 ∨ ∀ w ∈ weights, w = 0) :
    CalculateUtility (some factors) (some weights) n = .ok 0 := by
  refine CalculateUtility_zero_total factors weights n (by omega) (le_of_eq hf.symm)
    (le_of_eq hw.symm) ?_
  rcases hzero with hz | hall
  · exact hz
  · unfold weightTotalSpec
    refine Finset.sum_eq_zero fun j hj => ?_
    rcases Nat.lt_or_ge j weights.length with hlt | hge
    · rw [List.getD_eq_getElem weights 0 hlt]
      exact hall _ (List.getElem_mem hlt)
    · exact List.getD_eq_default weights 0 hge

/-- C2 witness: `F = [7]`, `W = [0]`, `n = 1` gives the degenerate score `0`. -/
theorem C2_witness : CalculateUtility (some [7]) (some [0]) 1 = .ok 0 := by
  have h := C2_zero_weight_total [7] [0] 1 (by norm_num) (by simp) (by simp)
    (Or.inr (by intro w hw; simpa using hw))
  exact h

/-- C3: `CalculateUtility` raises `InvalidInput` (throws `std::invalid_argument`)
if and only if the factor pointer is null, the weight pointer is null, or the
length is `0`; the outcome in those cases is independent of any array contents. -/
theorem C3_invalid_input_iff (factors weights : Option (List ℚ)) (n : Nat) :
    CalculateUtility factors weights n = .invalidInput invalidInputMsg ↔
      factors = none ∨ weights = none ∨ n = 0 := by
  cases factors with
  | none => simp [CalculateUtility]
  | some fs =>
    cases weights with
    | none => simp [CalculateUtility]
    | some ws =>
      simp only [CalculateUtility, Option.some.injEq, reduceCtorEq, false_or]
      by_cases hn : n = 0
      · simp [hn]
      · simp only [hn, if_false, iff_false]
        cases h : loopGo fs ws n 0 0 0 with
        | none => simp
        | some p =>
          rcases p with ⟨a, b⟩
          by_cases hb : b = 0 <;> simp [hb]

/-- C5: for every single-element input (`n = 1`) with non-zero weight,
`CalculateUtility` returns the factor value itself, whatever the weight is. -/
theorem C5_single_element (f w : ℚ) (hw : w ≠ 0) :
    CalculateUtility (some [f]) (some [w]) 1 = .ok f := by
  have htot : weightTotalSpec [w] 1 = w := by simp [weightTotalSpec]
  have hws : weightedSumSpec [f] [w] 1 = f * w := by simp [weightedSumSpec]
  have h := CalculateUtility_ok [f] [w] 1 (by norm_num) (by simp) (by simp)
    (by rw [htot]; exact hw)
  rw [h, htot, hws, mul_div_assoc, div_self hw, mul_one]

/-- C5 witness: `F = [5]`, `W = [2]` yields exactly `5`. -/
theorem C5_witness : CalculateUtility (some [5]) (some [2]) 1 = .ok 5 :=
  C5_single_element 5 2 (by norm_num)

/-- C6: `CalculateUtility` is deterministic — two calls with identical arguments
produce identical outcomes (the embedding fixes the left-to-right summation order,
so equal inputs yield the same accumulators and the same score). -/
theorem C6_deterministic (factors₁ weights₁ : Option (List ℚ)) (n₁ : Nat)
    (factors₂ weights₂ : Option (List ℚ)) (n₂ : Nat)
    (hf : factors₁ = factors₂) (hw : weights₁ = weights₂) (hn : n₁ = n₂) :
    CalculateUtility factors₁ weights₁ n₁ = CalculateUtility factors₂ weights₂ n₂ := by
  rw [hf, hw, hn]

/-- C6 witness: two identical concrete calls agree. -/
theorem C6_witness :
    CalculateUtility (some [2, 3]) (some [1, 1]) 2 =
      CalculateUtility (some [2, 3]) (some [1, 1]) 2 :=
  C6_deterministic (some [2, 3]) (some [1, 1]) 2 (some [2, 3]) (some [1, 1]) 2
    rfl rfl rfl

/-- C7: when every weight is the same non-zero constant `c`, the score is the
arithmetic mean of the factors; in particular `F = [1, 2, 3]`, `W = [1, 1, 1]`
yields exactly `2`, and negative factors pass through unchanged:
`F = [-4, 4]`, `W = [1, 1]` yields exactly `0`. -/
theorem C7_equal_weights (factors : List ℚ) (n : Nat) (c : ℚ)
    (hn : 1 ≤ n) (hf : factors.length = n) (hc : c ≠ 0) :
    CalculateUtility (some factors) (some (List.replicate n c)) n =
      .ok ((∑ j ∈ Finset.range n, factors.getD j 0) / n) ∧
    CalculateUtility (some [1, 2, 3]) (some [1, 1, 1]) 3 = .ok 2 ∧
    CalculateUtility (some [-4, 4]) (some [1, 1]) 2 = .ok 0 := by
  have hrep : ∀ j ∈ Finset.range n, (List.replicate n c).getD j 0 = c := by
    intro j hj
    have hj' : j < (List.replicate n c).length := by
      simp [Finset.mem_range.mp hj]
    rw [List.getD_eq_getElem _ 0 hj', List.getElem_replicate]
  have htot : weightTotalSpec (List.replicate n c) n = n * c := by
    unfold weightTotalSpec
    rw [Finset.sum_congr rfl hrep, Finset.sum_const, Finset.card_range, nsmul_eq_mul]
  have hws : weightedSumSpec factors (List.replicate n c) n =
      (∑ j ∈ Finset.range n, factors.getD j 0) * c := by
    unfold weightedSumSpec
    rw [Finset.sum_mul]
    refine Finset.sum_congr rfl fun j hj => ?_
    rw [hrep j hj]
  have hne : weightTotalSpec (List.replicate n c) n ≠ 0 := by
    rw [htot]
    exact mul_ne_zero (Nat.cast_ne_zero.mpr (by omega)) hc
  refine ⟨?_, ?_, ?_⟩
  · rw [CalculateUtility_ok factors (List.replicate n c) n (by omega) hf.ge
      (by simp) hne, hws, htot, mul_comm ((n : ℚ)) c, ← div_div,
      mul_div_cancel_right₀ _ hc]
  · norm_num [CalculateUtility, loopGo]
  · norm_num [CalculateUtility, loopGo]

/-- C7 witness: `F = [4, 6]` with constant weight `3` over `n = 2` yields
the arithmetic mean `(4 + 6) / 2`. -/
theorem C7_witness :
    CalculateUtility (some [(4 : ℚ), 6]) (some (List.replicate 2 (3 : ℚ))) 2 =
      .ok ((∑ j ∈ Finset.range 2, [(4 : ℚ), 6].getD j 0) / 2) :=
  (C7_equal_weights [4, 6] 2 3 (by norm_num) (by simp) (by norm_num)).1

/-- The caller-owned memory visible to one call: the two arrays behind the
`const float*` arguments (`none` = null pointer). Both pointers are `const` and
the function body contains no store, so the embedding threads this state through
the call and any mutation would have to show up in the returned state. -/
structure CallState where
  factorsMem : Option (List ℚ)
  weightsMem : Option (List ℚ)
deriving DecidableEq, Repr

/-- One call of `CalculateUtility` against explicit caller memory: it produces
the outcome and the memory as the function leaves it. The source reads from
`factors` and `weights` only (`const` pointers, no stores, no globals), so the
resulting memory is the input memory, untouched. -/
def CalculateUtilityCall (st : CallState) (length : Nat) : CallResult × CallState :=
  (CalculateUtility st.factorsMem st.weightsMem length, st)

/-- C8: `CalculateUtility` has no side effects — the caller's memory after the
call is exactly the memory before it (no mutation of either sequence, no retained
state), and the outcome is a pure function of the arguments. -/
theorem C8_no_side_effects (st : CallState) (n : Nat) :
    (CalculateUtilityCall st n).2 = st ∧
    (CalculateUtilityCall st n).1 = CalculateUtility st.factorsMem st.weightsMem n :=
  ⟨rfl, rfl⟩

/-- C9: when each pointer refers to an array of at least `length` elements,
every read the loop performs is in bounds: the out-of-bounds branch of the
embedded indexing never fires, and the call never hits undefined behaviour. -/
theorem C9_reads_in_bounds (factors weights : List ℚ) (n : Nat)
    (hf : n ≤ factors.length) (hw : n ≤ weights.length) :
    loopGo factors weights n 0 0 0 ≠ none ∧
    CalculateUtility (some factors) (some weights) n ≠ .undefinedRead := by
  have h := utilityLoop_spec factors weights n hf hw
  constructor
  · rw [h]; exact Option.some_ne_none _
  · simp only [CalculateUtility]
    by_cases hn : n = 0
    · simp [hn]
    · rw [if_neg hn, h]
      by_cases hz : weightTotalSpec weights n = 0 <;> simp [hz]

/-- C9 witness: arrays of length 2 read with `length = 2` stay in bounds. -/
theorem C9_witness :
    loopGo [(2 : ℚ), 3] [4, 5] 2 0 0 0 ≠ none ∧
    CalculateUtility (some [(2 : ℚ), 3]) (some [4, 5]) 2 ≠ .undefinedRead :=
  C9_reads_in_bounds [2, 3] [4, 5] 2 (by simp) (by simp)

/-- The accumulation loop instrumented with an iteration counter: identical to
`loopGo` except that it also returns how many times the loop body executed. -/
def loopGoCount (factors weights : List ℚ) :
    Nat → Nat → ℚ → ℚ → Nat → Option ((ℚ × ℚ) × Nat)
  | 0, _, weightedSum, weightTotal, steps => some ((weightedSum, weightTotal), steps)
  | k + 1, i, weightedSum, weightTotal, steps =>
    match factors.get? i, weights.get? i with
    | some f, some w =>
      loopGoCount factors weights k (i + 1) (weightedSum + f * w) (weightTotal + w)
        (steps + 1)
    | _, _ => none

theorem loopGoCount_steps (factors weights : List ℚ) (k : Nat) :
    ∀ (i : Nat) (a b : ℚ) (s : Nat), i + k ≤ factors.length → i + k ≤ weights.length →
      ∃ p, loopGoCount factors weights k i a b s = some (p, s + k) := by
  induction k with
  | zero => intro i a b s _ _; exact ⟨(a, b), rfl⟩
  | succ k ih =>
    intro i a b s hf hw
    have hif : i < factors.length := by omega
    have hiw : i < weights.length := by omega
    have h1 : factors.get? i = some (factors.getD i 0) := by
      rw [List.getD_eq_getElem?_getD, List.get?_eq_getElem?,
        List.getElem?_eq_getElem hif]
      rfl
    have h2 : weights.get? i = some (weights.getD i 0) := by
      rw [List.getD_eq_getElem?_getD, List.get?_eq_getElem?,
        List.getElem?_eq_getElem hiw]
      rfl
    simp only [loopGoCount, h1, h2]
    obtain ⟨p, hp⟩ := ih (i + 1) (a + factors.getD i 0 * weights.getD i 0)
      (b + weights.getD i 0) (s + 1) (by omega) (by omega)
    have hsk : s + 1 + k = s + (k + 1) := by omega
    rw [hsk] at hp
    exact ⟨p, hp⟩

/-- C10: for every finite `length` with arrays large enough, the call terminates:
the loop body executes exactly `length` times, and the function is total — it
either throws `InvalidInput` or returns a score. -/
theorem C10_terminates (factors weights : List ℚ) (n : Nat)
    (hf : n ≤ factors.length) (hw : n ≤ weights.length) :
    (∃ p, loopGoCount factors weights n 0 0 0 0 = some (p, n)) ∧
    (CalculateUtility (some factors) (some weights) n = .invalidInput invalidInputMsg ∨
      ∃ q, CalculateUtility (some factors) (some weights) n = .ok q) := by
  constructor
  · have h := loopGoCount_steps factors weights n 0 0 0 0 (by omega) (by omega)
    simpa using h
  · by_cases hn : n = 0
    · left
      simp [CalculateUtility, hn]
    · right
      by_cases hz : weightTotalSpec weights n = 0
      · exact ⟨0, CalculateUtility_zero_total factors weights n hn hf hw hz⟩
      · exact ⟨_, CalculateUtility_ok factors weights n hn hf hw hz⟩

/-- C10 witness: a length-3 call performs exactly 3 iterations and returns a score. -/
theorem C10_witness :
    (∃ p, loopGoCount [(1 : ℚ), 2, 3] [1, 0, 1] 3 0 0 0 0 = some (p, 3)) ∧
    (CalculateUtility (some [(1 : ℚ), 2, 3]) (some [1, 0, 1]) 3 =
        .invalidInput invalidInputMsg ∨
      ∃ q, CalculateUtility (some [(1 : ℚ), 2, 3]) (some [1, 0, 1]) 3 = .ok q) :=
  C10_terminates [1, 2, 3] [1, 0, 1] 3 (by simp) (by simp)

end UtilityCalculator
